import Mathlib

/-!
Verification development for a structural (deep) equality engine.

The source program is a comparator-dispatch deep-equality engine over
JavaScript-like values (primitives, arrays, keyed objects) with a
cycle guard: a set of already-visited composite left operands kept in
the engine; when the left operand of a comparison is already in the
set, the comparison short-circuits to reference identity.

Embedding choices:
- Reference identity of composite values is modelled by a heap: a list
  of heap objects (`HObj`, either an array of values or a list of
  string-keyed fields), with composite values being indices (`Value.ref`)
  into the heap.  Two refs are `===`-equal iff they are the same index.
- Primitives are a closed inductive (`Prim`); symbols and functions are
  identified by a numeric id, so `===` on them is id equality, matching
  reference identity.  Numbers are modelled as integers.
- `deepEqual` is fuel-indexed (the source recursion has no structural
  measure because of cycles); the guard set is threaded explicitly as a
  list of visited refs.  Fuel-independence above an explicit bound is
  proved, which expresses termination of the source recursion.
-/

set_option maxHeartbeats 1000000

namespace DeepEq

/-- JavaScript primitive values (`TPrimitive` in the source):
null, undefined, booleans, numbers, strings, symbols, bigints; plus
function values, which the source routes to the primitive comparator
because `typeof f !== 'object'`.  Symbols and functions carry a numeric
identity so that `===` on them is identity comparison.  `NaN` is a
separate constructor because JavaScript `===` is irreflexive on it
(`NaN === NaN` is `false`); the remaining numbers are modelled as
integers. -/
inductive Prim where
  | null
  | undefinedV
  | bool (b : Bool)
  | num (n : Int)
  | nan
  | str (s : String)
  | sym (id : Nat)
  | bigint (n : Int)
  | func (id : Nat)
deriving DecidableEq, Repr

/-- A value (`TValue` in the source): a primitive, or a reference to a
composite (array or keyed object) living in the heap. -/
inductive Value where
  | prim (p : Prim)
  | ref (r : Nat)
deriving DecidableEq, Repr

/-- A composite heap object: an array of values, or a keyed object
given as an ordered field list (JS `Object.keys` order). -/
inductive HObj where
  | arr (elems : List Value)
  | obj (fields : List (String × Value))
deriving DecidableEq, Repr

/-- The heap: composite identity `r` denotes `h[r]`. -/
abbrev Heap := List HObj

/-- Heap lookup; out-of-range refs default to an empty object (real JS
programs have no dangling references, so this default is never hit on
faithful heaps). -/
def heapGet (h : Heap) (r : Nat) : HObj := (h.get? r).getD (.obj [])

/-- Whether a primitive is `NaN`. -/
def isNaN : Prim → Bool
  | .nan => true
  | _ => false

/-- JavaScript strict equality on primitives: `NaN` is equal to
nothing, itself included; every other primitive compares by (tagged)
value, with symbols and functions comparing by identity. -/
def primEq (p q : Prim) : Bool := !isNaN p && !isNaN q && decide (p = q)

/-- JavaScript strict equality `a === b` on modelled values: primitives
compare by `primEq`, composites by reference identity. -/
def strictEq : Value → Value → Bool
  | .prim p, .prim q => primEq p q
  | .ref r, .ref s => decide (r = s)
  | _, _ => false

/-- `typeof v === 'object' && v !== null`: the guard in
`DeepEqualEngine.deepEqual` applies exactly to composite values. -/
def isComposite : Value → Bool
  | .prim _ => false
  | .ref _ => true

/-- `Array.isArray(v)`. -/
def isArrayVal (h : Heap) : Value → Bool
  | .prim _ => false
  | .ref r => match heapGet h r with | .arr _ => true | .obj _ => false

/-- `v != null && typeof v === 'object' && !Array.isArray(v)`: the shape
accepted by the object comparator. -/
def isObjVal (h : Heap) : Value → Bool
  | .prim _ => false
  | .ref r => match heapGet h r with | .arr _ => false | .obj _ => true

/-- Property read `fields[k]`: first matching field, `undefined` when
absent (JS field lists have unique keys, so first-match is the match). -/
def lookupField (fs : List (String × Value)) (k : String) : Value :=
  match fs.find? (fun p => p.fst == k) with
  | some p => p.snd
  | none => .prim .undefinedV

/-- `Array.prototype.every` over index-aligned pairs with a stateful
comparison: runs the comparisons left to right, threading the visited
set, short-circuiting at the first `false` (as `every` does). -/
def andThread (eq1 : List Nat → Value → Value → Bool × List Nat) :
    List (Value × Value) → List Nat → Bool × List Nat
  | [], vis => (true, vis)
  | p :: ps, vis =>
    let r := eq1 vis p.fst p.snd
    if r.fst then andThread eq1 ps r.snd else (false, r.snd)

/-- `keysA.every(key => keysB.includes(key) && ctx.deepEqual(a[key], b[key]))`:
iterate over the keys of `fA`, require membership in the keys of `fB`,
then compare the two field values, threading the visited set and
short-circuiting at the first failure. -/
def andThreadKeys (eq1 : List Nat → Value → Value → Bool × List Nat)
    (fA fB : List (String × Value)) : List String → List Nat → Bool × List Nat
  | [], vis => (true, vis)
  | k :: ks, vis =>
    if (fB.map Prod.fst).contains k then
      let r := eq1 vis (lookupField fA k) (lookupField fB k)
      if r.fst then andThreadKeys eq1 fA fB ks r.snd else (false, r.snd)
    else (false, vis)

/-- `DeepEqualEngine.deepEqual(a, b)` for the default-constructed engine
(the three built-in comparators, in registration order primitive,
array, object), with the `visited` WeakSet threaded explicitly and a
fuel argument bounding recursion depth (the source recursion is
unbounded syntactically; `deepEqual_fuel_irrelevant` recovers its
termination).  Step by step, following the source:
if `a` is composite it is first checked against the guard set
(short-circuit to `a === b` when present, else recorded); then the
first matching comparator runs: primitives compare by `===`, arrays
check `Array.isArray(b)` and length then compare elementwise, objects
check `b`'s shape, key-count, then key membership plus field values. -/
def deepEqual (h : Heap) : Nat → List Nat → Value → Value → Bool × List Nat
  | 0, vis, _, _ => (false, vis)
  | fuel + 1, vis, a, b =>
    match a with
    | .prim p => (strictEq (.prim p) b, vis)
    | .ref r =>
      if r ∈ vis then (strictEq (.ref r) b, vis)
      else
        match heapGet h r with
        | .arr as =>
          match b with
          | .ref s =>
            match heapGet h s with
            | .arr bs =>
              if as.length = bs.length then
                andThread (deepEqual h fuel) (as.zip bs) (r :: vis)
              else (false, r :: vis)
            | .obj _ => (false, r :: vis)
          | .prim _ => (false, r :: vis)
        | .obj fA =>
          match b with
          | .ref s =>
            match heapGet h s with
            | .obj fB =>
              if (fA.map Prod.fst).length = (fB.map Prod.fst).length then
                andThreadKeys (deepEqual h fuel) fA fB (fA.map Prod.fst) (r :: vis)
              else (false, r :: vis)
            | .arr _ => (false, r :: vis)
          | .prim _ => (false, r :: vis)

/-- The number of heap refs not yet in the visited set: the measure
that shrinks every time the engine recurses into a fresh composite. -/
def unvisitedCount (h : Heap) (vis : List Nat) : Nat :=
  ((List.range h.length).filter (fun r => decide (r ∉ vis))).length

/-- Fuel sufficient for `deepEqual` to run to completion from visited
set `vis`: one unit per heap object not yet visited, plus two. -/
def enoughFuel (h : Heap) (vis : List Nat) : Nat := unvisitedCount h vis + 2

/-- No immediate child value of this heap object is `NaN`. -/
def hobjNanFree : HObj → Bool
  | .arr vs => vs.all (fun v => decide (v ≠ .prim .nan))
  | .obj fs => fs.all (fun q => decide (q.snd ≠ .prim .nan))

/-- No value stored anywhere in the heap is `NaN`; together with a
non-`NaN` top value this keeps `NaN` out of every comparison the
engine performs. -/
def heapNanFree (h : Heap) : Bool := h.all hobjNanFree

/-- A comparator as the engine's dispatch sees it: its shape predicate
`canHandle`.  (Dispatch never inspects `compare`.) -/
structure Comparator where
  canHandle : Value → Bool

/-- `PrimitiveComparator.canHandle`: `value == null || typeof value !== 'object'`. -/
def primitiveComparator : Comparator := ⟨fun v => !isComposite v⟩

/-- `ArrayComparator.canHandle`: `Array.isArray(value)`. -/
def arrayComparator (h : Heap) : Comparator := ⟨fun v => isArrayVal h v⟩

/-- `ObjectComparator.canHandle`:
`value != null && typeof value === 'object' && !Array.isArray(value)`. -/
def objectComparator (h : Heap) : Comparator := ⟨fun v => isComposite v && !isArrayVal h v⟩

/-- The comparator list built by `DeepEqualEngine`'s constructor. -/
def defaultComparators (h : Heap) : List Comparator :=
  [primitiveComparator, arrayComparator h, objectComparator h]

/-- `DeepEqualEngine.findComparator`: first comparator whose shape
predicate accepts the value. -/
def findComparator (comps : List Comparator) (v : Value) : Option Comparator :=
  comps.find? (fun c => c.canHandle v)

/-- `DeepEqualEngine.addComparator`: prepend for priority. -/
def addComparator (comps : List Comparator) (c : Comparator) : List Comparator :=
  c :: comps

/-- The engine throws (`Не найден компаратор…`) exactly when
`findComparator` returns nothing. -/
def noComparatorError (comps : List Comparator) (v : Value) : Bool :=
  (findComparator comps v).isNone

/-! ## Infrastructure: visited-set monotonicity and the recursion measure -/

theorem andThread_vis_mono (eq1 : List Nat → Value → Value → Bool × List Nat)
    (h1 : ∀ vis a b, vis ⊆ (eq1 vis a b).snd) :
    ∀ (ps : List (Value × Value)) (vis : List Nat), vis ⊆ (andThread eq1 ps vis).snd := by
  intro ps
  induction ps with
  | nil => intro vis; simp [andThread]
  | cons p ps ih =>
    intro vis
    simp only [andThread]
    by_cases hr : (eq1 vis p.fst p.snd).fst
    · simpa [hr] using (h1 vis p.fst p.snd).trans (ih _)
    · simpa [hr] using h1 vis p.fst p.snd

theorem andThreadKeys_vis_mono (eq1 : List Nat → Value → Value → Bool × List Nat)
    (h1 : ∀ vis a b, vis ⊆ (eq1 vis a b).snd) (fA fB : List (String × Value)) :
    ∀ (ks : List String) (vis : List Nat), vis ⊆ (andThreadKeys eq1 fA fB ks vis).snd := by
  intro ks
  induction ks with
  | nil => intro vis; simp [andThreadKeys]
  | cons k ks ih =>
    intro vis
    simp only [andThreadKeys]
    by_cases hc : (fB.map Prod.fst).contains k = true
    · rw [if_pos hc]
      by_cases hr : (eq1 vis (lookupField fA k) (lookupField fB k)).fst = true
      · rw [if_pos hr]
        exact (h1 vis _ _).trans (ih _)
      · rw [if_neg hr]
        exact h1 vis _ _
    · rw [if_neg hc]
      exact List.Subset.refl _

theorem deepEqual_vis_mono (h : Heap) :
    ∀ (fuel : Nat) (vis : List Nat) (a b : Value), vis ⊆ (deepEqual h fuel vis a b).snd := by
  intro fuel
  induction fuel with
  | zero => intro vis a b; simp [deepEqual]
  | succ fuel ih =>
    intro vis a b
    simp only [deepEqual]
    split
    · simp
    · split
      · simp
      · split <;> split
        · split
          · split
            · exact (List.subset_cons_self _ _).trans (andThread_vis_mono _ ih _ _)
            · exact List.subset_cons_self _ _
          · exact List.subset_cons_self _ _
        · exact List.subset_cons_self _ _
        · split
          · split
            · exact (List.subset_cons_self _ _).trans (andThreadKeys_vis_mono _ ih _ _ _ _)
            · exact List.subset_cons_self _ _
          · exact List.subset_cons_self _ _
        · exact List.subset_cons_self _ _

theorem filter_length_mono {α : Type} (l : List α) (p q : α → Bool)
    (hpq : ∀ x, p x = true → q x = true) :
    (l.filter p).length ≤ (l.filter q).length := by
  induction l with
  | nil => simp
  | cons x l ih =>
    by_cases hp : p x = true
    · have hq := hpq x hp
      simp only [List.filter_cons_of_pos hp, List.filter_cons_of_pos hq, List.length_cons]
      omega
    · rw [List.filter_cons_of_neg hp]
      by_cases hq : q x = true
      · rw [List.filter_cons_of_pos hq]
        simp only [List.length_cons]
        omega
      · rw [List.filter_cons_of_neg hq]
        exact ih

theorem filter_length_lt {α : Type} (l : List α) (p q : α → Bool)
    (hpq : ∀ x, p x = true → q x = true)
    (r : α) (hrl : r ∈ l) (hq : q r = true) (hp : p r = false) :
    (l.filter p).length < (l.filter q).length := by
  induction l with
  | nil => cases hrl
  | cons x l ih =>
    rcases List.mem_cons.mp hrl with he | hm
    · subst he
      rw [List.filter_cons_of_neg (by simp [hp]), List.filter_cons_of_pos hq]
      simp only [List.length_cons]
      exact Nat.lt_succ_of_le (filter_length_mono l p q hpq)
    · by_cases hpx : p x = true
      · have hqx := hpq x hpx
        rw [List.filter_cons_of_pos hpx, List.filter_cons_of_pos hqx]
        simpa using ih hm
      · rw [List.filter_cons_of_neg hpx]
        by_cases hqx : q x = true
        · rw [List.filter_cons_of_pos hqx]
          exact Nat.lt_succ_of_lt (ih hm)
        · rw [List.filter_cons_of_neg hqx]
          exact ih hm

theorem unvisitedCount_anti (h : Heap) {vis vis' : List Nat} (hsub : vis ⊆ vis') :
    unvisitedCount h vis' ≤ unvisitedCount h vis := by
  apply filter_length_mono
  intro x hx
  simp only [decide_eq_true_eq] at hx ⊢
  intro hmem
  exact hx (hsub hmem)

theorem unvisitedCount_cons_lt (h : Heap) {vis : List Nat} {r : Nat}
    (hr : r < h.length) (hrv : r ∉ vis) :
    unvisitedCount h (r :: vis) < unvisitedCount h vis := by
  apply filter_length_lt _ _ _ _ r (List.mem_range.mpr hr)
  · simpa using hrv
  · simp
  · intro x hx
    simp only [decide_eq_true_eq] at hx ⊢
    intro hmem
    exact hx (List.mem_cons_of_mem _ hmem)

theorem heapGet_lt_of_arr {h : Heap} {r : Nat} {as : List Value}
    (hga : heapGet h r = .arr as) : r < h.length := by
  by_contra hge
  rw [heapGet, List.get?_eq_getElem?, List.getElem?_eq_none (Nat.le_of_not_lt hge)] at hga
  cases hga

theorem heapGet_ge_obj_nil {h : Heap} {r : Nat} (hge : h.length ≤ r) :
    heapGet h r = .obj [] := by
  rw [heapGet, List.get?_eq_getElem?, List.getElem?_eq_none hge]
  rfl

/-- Above the fuel bound `unvisitedCount + 2`, the result of the engine
does not depend on the fuel: the source recursion terminates because
every descent into a fresh composite removes one heap object from the
unvisited set. -/
theorem deepEqual_fuel_bound :
    ∀ (K : Nat) (h : Heap) (vis : List Nat) (a b : Value) (f1 f2 : Nat),
      unvisitedCount h vis < K →
      unvisitedCount h vis + 2 ≤ f1 → unvisitedCount h vis + 2 ≤ f2 →
      deepEqual h f1 vis a b = deepEqual h f2 vis a b := by
  intro K
  induction K with
  | zero => intro h vis a b f1 f2 hK _ _; exact absurd hK (Nat.not_lt_zero _)
  | succ K ih =>
    intro h vis a b f1 f2 hK h1 h2
    obtain ⟨f1', rfl⟩ : ∃ f1', f1 = f1' + 1 := ⟨f1 - 1, by omega⟩
    obtain ⟨f2', rfl⟩ : ∃ f2', f2 = f2' + 1 := ⟨f2 - 1, by omega⟩
    cases a with
    | prim p => simp [deepEqual]
    | ref r =>
      by_cases hrv : r ∈ vis
      · simp [deepEqual, hrv]
      · rcases hga : heapGet h r with as | fA
        · have hrlen : r < h.length := heapGet_lt_of_arr hga
          have hlt : unvisitedCount h (r :: vis) < unvisitedCount h vis :=
            unvisitedCount_cons_lt h hrlen hrv
          have key : ∀ (ps : List (Value × Value)) (vis₀ : List Nat), r :: vis ⊆ vis₀ →
              andThread (deepEqual h f1') ps vis₀ = andThread (deepEqual h f2') ps vis₀ := by
            intro ps
            induction ps with
            | nil => intro vis₀ _; simp [andThread]
            | cons p ps ihp =>
              intro vis₀ hsub
              have hcnt : unvisitedCount h vis₀ ≤ unvisitedCount h (r :: vis) :=
                unvisitedCount_anti h hsub
              have he : deepEqual h f1' vis₀ p.fst p.snd = deepEqual h f2' vis₀ p.fst p.snd :=
                ih h vis₀ p.fst p.snd f1' f2' (by omega) (by omega) (by omega)
              simp only [andThread, he]
              by_cases hr1 : (deepEqual h f2' vis₀ p.fst p.snd).fst
              · have hsub2 : r :: vis ⊆ (deepEqual h f2' vis₀ p.fst p.snd).snd :=
                  hsub.trans (deepEqual_vis_mono h f2' vis₀ p.fst p.snd)
                simp [hr1, ihp _ hsub2]
              · simp [hr1]
          cases b with
          | prim q => simp [deepEqual, hrv, hga]
          | ref s =>
            rcases hgb : heapGet h s with bs | fB
            · by_cases hlen : as.length = bs.length
              · simpa [deepEqual, hrv, hga, hgb, hlen] using
                  key (as.zip bs) (r :: vis) (List.Subset.refl _)
              · simp [deepEqual, hrv, hga, hgb, hlen]
            · simp [deepEqual, hrv, hga, hgb]
        · rcases Nat.lt_or_ge r h.length with hrlen | hrlen
          · have hlt : unvisitedCount h (r :: vis) < unvisitedCount h vis :=
              unvisitedCount_cons_lt h hrlen hrv
            have key : ∀ (ks : List String) (fB' : List (String × Value)) (vis₀ : List Nat),
                r :: vis ⊆ vis₀ →
                andThreadKeys (deepEqual h f1') fA fB' ks vis₀
                  = andThreadKeys (deepEqual h f2') fA fB' ks vis₀ := by
              intro ks
              induction ks with
              | nil => intro fB' vis₀ _; simp [andThreadKeys]
              | cons k ks ihk =>
                intro fB' vis₀ hsub
                have hcnt : unvisitedCount h vis₀ ≤ unvisitedCount h (r :: vis) :=
                  unvisitedCount_anti h hsub
                simp only [andThreadKeys]
                by_cases hc : (fB'.map Prod.fst).contains k = true
                · rw [if_pos hc, if_pos hc]
                  have he : deepEqual h f1' vis₀ (lookupField fA k) (lookupField fB' k)
                      = deepEqual h f2' vis₀ (lookupField fA k) (lookupField fB' k) :=
                    ih h vis₀ _ _ f1' f2' (by omega) (by omega) (by omega)
                  rw [he]
                  by_cases hr1 :
                      (deepEqual h f2' vis₀ (lookupField fA k) (lookupField fB' k)).fst = true
                  · rw [if_pos hr1, if_pos hr1]
                    exact ihk fB' _ (hsub.trans (deepEqual_vis_mono h f2' vis₀ _ _))
                  · rw [if_neg hr1, if_neg hr1]
                · rw [if_neg hc, if_neg hc]
            cases b with
            | prim q => simp [deepEqual, hrv, hga]
            | ref s =>
              rcases hgb : heapGet h s with bs | fB
              · simp [deepEqual, hrv, hga, hgb]
              · by_cases hlen : fA.length = fB.length
                · simpa [deepEqual, hrv, hga, hgb, hlen, List.length_map] using
                    key (fA.map Prod.fst) fB (r :: vis) (List.Subset.refl _)
                · simp [deepEqual, hrv, hga, hgb, hlen, List.length_map]
          · have h0 : heapGet h r = .obj [] := heapGet_ge_obj_nil hrlen
            rw [hga] at h0
            injection h0 with hfa
            subst hfa
            cases b with
            | prim q => simp [deepEqual, hrv, hga]
            | ref s =>
              rcases hgb : heapGet h s with bs | fB
              · simp [deepEqual, hrv, hga, hgb]
              · simp [deepEqual, hrv, hga, hgb, andThreadKeys]

/-- C2.  `deepEqual` terminates on every pair of values, cyclic ones
included: above the explicit fuel bound `enoughFuel` the computation is
fuel-independent (each recursion into a composite either short-circuits
on the guard or permanently shrinks the set of unvisited heap objects),
and on the cyclic value `x` with field `a = 313` and field
`children = x`, the comparison `deepEqual(x, x)` returns `true`. -/
theorem deepEqual_terminates :
    (∀ (h : Heap) (vis : List Nat) (a b : Value) (f1 f2 : Nat),
        enoughFuel h vis ≤ f1 → enoughFuel h vis ≤ f2 →
        deepEqual h f1 vis a b = deepEqual h f2 vis a b)
    ∧ (deepEqual [HObj.obj [("a", .prim (.num 313)), ("children", .ref 0)]]
        (enoughFuel [HObj.obj [("a", .prim (.num 313)), ("children", .ref 0)]] [])
        [] (.ref 0) (.ref 0)).fst = true := by
  constructor
  · intro h vis a b f1 f2 h1 h2
    exact deepEqual_fuel_bound (unvisitedCount h vis + 1) h vis a b f1 f2
      (Nat.lt_succ_self _) h1 h2
  · decide

/-- Witness for C2: fuel-independence at concrete fuels on the cyclic
heap, and the cyclic self-comparison evaluating to `true`. -/
theorem deepEqual_terminates_witness :
    deepEqual [HObj.obj [("a", .prim (.num 313)), ("children", .ref 0)]] 3 []
        (.ref 0) (.ref 0)
      = deepEqual [HObj.obj [("a", .prim (.num 313)), ("children", .ref 0)]] 9 []
        (.ref 0) (.ref 0)
    ∧ (deepEqual [HObj.obj [("a", .prim (.num 313)), ("children", .ref 0)]] 3 []
        (.ref 0) (.ref 0)).fst = true :=
  ⟨deepEqual_terminates.1 _ [] (.ref 0) (.ref 0) 3 9 (by decide) (by decide),
    deepEqual_terminates.2⟩

theorem primEq_refl {p : Prim} (hp : p ≠ .nan) : primEq p p = true := by
  have hnp : isNaN p = false := by
    cases p <;> simp [isNaN] at hp ⊢
  simp [primEq, hnp]

theorem heapNanFree_arr {h : Heap} {r : Nat} {as : List Value}
    (hnf : heapNanFree h = true) (hga : heapGet h r = .arr as) :
    ∀ x ∈ as, x ≠ .prim .nan := by
  intro x hx
  rcases hg : h.get? r with _ | o
  · rw [heapGet, hg] at hga
    exact HObj.noConfusion hga
  · have hmem : o ∈ h := List.get?_mem hg
    rw [heapGet, hg] at hga
    simp only [Option.getD_some] at hga
    subst hga
    rw [heapNanFree, List.all_eq_true] at hnf
    have ho := hnf _ hmem
    rw [hobjNanFree, List.all_eq_true] at ho
    simpa using ho x hx

theorem heapNanFree_lookup {h : Heap} {r : Nat} {fA : List (String × Value)}
    (hnf : heapNanFree h = true) (hga : heapGet h r = .obj fA) (k : String) :
    lookupField fA k ≠ .prim .nan := by
  rcases hfind : fA.find? (fun q => q.fst == k) with _ | q
  · simp [lookupField, hfind]
  · have hqmem : q ∈ fA := List.mem_of_find?_eq_some hfind
    rcases hg : h.get? r with _ | o
    · rw [heapGet, hg] at hga
      simp only [Option.getD_none] at hga
      injection hga with hfa
      subst hfa
      cases hqmem
    · have hmem : o ∈ h := List.get?_mem hg
      rw [heapGet, hg] at hga
      simp only [Option.getD_some] at hga
      subst hga
      rw [heapNanFree, List.all_eq_true] at hnf
      have ho := hnf _ hmem
      rw [hobjNanFree, List.all_eq_true] at ho
      have hq := ho q hqmem
      simp only [decide_eq_true_eq] at hq
      simpa [lookupField, hfind] using hq

/-- Reflexivity of the engine from any visited set, by induction on the
number of unvisited heap objects: on a `NaN`-free heap, every pair
`(v, v)` with `v` not `NaN` compares equal — each sub-comparison is
again of the form `(x, x)` with `x` not `NaN`, and revisited composites
short-circuit to `x === x`. -/
theorem deepEqual_refl_aux :
    ∀ (K : Nat) (h : Heap) (vis : List Nat) (v : Value) (f : Nat),
      heapNanFree h = true → v ≠ .prim .nan →
      unvisitedCount h vis < K → unvisitedCount h vis + 2 ≤ f →
      (deepEqual h f vis v v).fst = true := by
  intro K
  induction K with
  | zero => intro h vis v f _ _ hK _; exact absurd hK (Nat.not_lt_zero _)
  | succ K ih =>
    intro h vis v f hnf hv hK hf
    obtain ⟨f', rfl⟩ : ∃ f', f = f' + 1 := ⟨f - 1, by omega⟩
    cases v with
    | prim p =>
      have hp : primEq p p = true := primEq_refl (fun he => hv (by rw [he]))
      simp [deepEqual, strictEq, hp]
    | ref r =>
      by_cases hrv : r ∈ vis
      · simp [deepEqual, hrv, strictEq]
      · rcases hga : heapGet h r with as | fA
        · have hrlen : r < h.length := heapGet_lt_of_arr hga
          have hlt : unvisitedCount h (r :: vis) < unvisitedCount h vis :=
            unvisitedCount_cons_lt h hrlen hrv
          have key : ∀ (l : List Value) (vis₀ : List Nat), r :: vis ⊆ vis₀ →
              (∀ x ∈ l, x ≠ .prim .nan) →
              (andThread (deepEqual h f') (l.zip l) vis₀).fst = true := by
            intro l
            induction l with
            | nil => intro vis₀ _ _; simp [andThread]
            | cons x l ihl =>
              intro vis₀ hsub hnn
              have hcnt : unvisitedCount h vis₀ ≤ unvisitedCount h (r :: vis) :=
                unvisitedCount_anti h hsub
              have hx : (deepEqual h f' vis₀ x x).fst = true :=
                ih h vis₀ x f' hnf (hnn x (List.mem_cons_self _ _)) (by omega) (by omega)
              rw [List.zip_cons_cons]
              simp only [andThread]
              rw [if_pos hx]
              exact ihl _ (hsub.trans (deepEqual_vis_mono h f' vis₀ x x))
                (fun y hy => hnn y (List.mem_cons_of_mem _ hy))
          have hres : deepEqual h (f' + 1) vis (.ref r) (.ref r)
              = andThread (deepEqual h f') (as.zip as) (r :: vis) := by
            simp [deepEqual, hrv, hga]
          rw [hres]
          exact key as _ (List.Subset.refl _) (heapNanFree_arr hnf hga)
        · rcases Nat.lt_or_ge r h.length with hrlen | hrlen
          · have hlt : unvisitedCount h (r :: vis) < unvisitedCount h vis :=
              unvisitedCount_cons_lt h hrlen hrv
            have key : ∀ (ks : List String) (vis₀ : List Nat), r :: vis ⊆ vis₀ →
                (∀ k ∈ ks, k ∈ fA.map Prod.fst) →
                (andThreadKeys (deepEqual h f') fA fA ks vis₀).fst = true := by
              intro ks
              induction ks with
              | nil => intro vis₀ _ _; simp [andThreadKeys]
              | cons k ks ihk =>
                intro vis₀ hsub hmem
                have hcnt : unvisitedCount h vis₀ ≤ unvisitedCount h (r :: vis) :=
                  unvisitedCount_anti h hsub
                have hk : k ∈ fA.map Prod.fst := hmem k (List.mem_cons_self _ _)
                have hcont : (fA.map Prod.fst).contains k = true := by
                  exact List.elem_eq_true_of_mem hk
                have hx : (deepEqual h f' vis₀ (lookupField fA k) (lookupField fA k)).fst
                    = true :=
                  ih h vis₀ _ f' hnf (heapNanFree_lookup hnf hga k) (by omega) (by omega)
                simp only [andThreadKeys]
                rw [if_pos hcont, if_pos hx]
                exact ihk _ (hsub.trans (deepEqual_vis_mono h f' vis₀ _ _))
                  (fun k' hk' => hmem k' (List.mem_cons_of_mem _ hk'))
            have hres : deepEqual h (f' + 1) vis (.ref r) (.ref r)
                = andThreadKeys (deepEqual h f') fA fA (fA.map Prod.fst) (r :: vis) := by
              simp [deepEqual, hrv, hga]
            rw [hres]
            exact key (fA.map Prod.fst) _ (List.Subset.refl _) (fun k hk => hk)
          · have h0 : heapGet h r = .obj [] := heapGet_ge_obj_nil hrlen
            rw [hga] at h0
            injection h0 with hfa
            subst hfa
            simp [deepEqual, hrv, hga, andThreadKeys]

/-- C3 counterexample.  Reflexivity fails on `NaN`: in the program
`deepEqual(NaN, NaN)` reaches the primitive comparator and `NaN === NaN`
is `false`; likewise the self-identical object `x` with field
`a = NaN` compares unequal to itself, because the fresh first visit
recurses into the field comparison `NaN === NaN`. -/
theorem deepEqual_refl_counterexample :
    (deepEqual [] 1 [] (.prim .nan) (.prim .nan)).fst = false
    ∧ (deepEqual [HObj.obj [("a", .prim .nan)]] 3 [] (.ref 0) (.ref 0)).fst = false := by
  decide

/-- C3 as amended.  Reflexivity holds away from `NaN`: on a freshly
constructed engine, `deepEqual(v, v)` returns `true` for every value
`v` that is not `NaN`, on every heap storing no `NaN` (cyclic values
included) — structurally for fresh composites, and by the identity
short-circuit `v === v` of the guard for re-encountered ones. -/
theorem deepEqual_refl (h : Heap) (v : Value) (f : Nat) (hnf : heapNanFree h = true)
    (hv : v ≠ .prim .nan) (hf : enoughFuel h [] ≤ f) :
    (deepEqual h f [] v v).fst = true :=
  deepEqual_refl_aux (unvisitedCount h [] + 1) h [] v f hnf hv (Nat.lt_succ_self _) hf

/-- Witness for the amended C3: reflexivity on a concrete cyclic,
`NaN`-free value. -/
theorem deepEqual_refl_witness :
    (deepEqual [HObj.obj [("n", .prim (.num 5)), ("self", .ref 0)]] 3 []
      (.ref 0) (.ref 0)).fst = true :=
  deepEqual_refl [HObj.obj [("n", .prim (.num 5)), ("self", .ref 0)]] (.ref 0) 3
    (by decide) (by decide) (by decide)

/-- Characterization of the threaded `every`-fold: it returns `true`
iff each index-aligned comparison, run in the visited state produced by
the prefix before it, returns `true`. -/
theorem andThread_fst_iff (eq1 : List Nat → Value → Value → Bool × List Nat) :
    ∀ (ps : List (Value × Value)) (vis : List Nat),
      (andThread eq1 ps vis).fst = true ↔
        ∀ (i : Nat) (hi : i < ps.length),
          (eq1 (andThread eq1 (ps.take i) vis).snd (ps.get ⟨i, hi⟩).fst
            (ps.get ⟨i, hi⟩).snd).fst = true := by
  intro ps
  induction ps with
  | nil => intro vis; simp [andThread]
  | cons p ps ih =>
    intro vis
    simp only [andThread]
    by_cases hr : (eq1 vis p.fst p.snd).fst = true
    · rw [if_pos hr, ih]
      constructor
      · intro hall i hi
        cases i with
        | zero => simpa [andThread] using hr
        | succ j =>
          have hj : j < ps.length := by simpa using hi
          have hstep := hall j hj
          simpa [List.take_succ_cons, andThread, hr] using hstep
      · intro hall i hi
        have hstep := hall (i + 1) (by simpa using hi)
        simpa [List.take_succ_cons, andThread, hr] using hstep
    · rw [if_neg hr]
      simp only [show (false = true) = False by simp, false_iff, not_forall]
      refine ⟨0, by simp, ?_⟩
      intro hcontra
      exact hr (by simpa [andThread] using hcontra)

/-- Characterization of the threaded key-fold: it returns `true` iff
for each key of `fA` (in order), the key is among `fB`'s keys and the
comparison of the two field values, run in the visited state produced
by the prefix before it, returns `true`. -/
theorem andThreadKeys_fst_iff (eq1 : List Nat → Value → Value → Bool × List Nat)
    (fA fB : List (String × Value)) :
    ∀ (ks : List String) (vis : List Nat),
      (andThreadKeys eq1 fA fB ks vis).fst = true ↔
        ∀ (i : Nat) (hi : i < ks.length),
          (fB.map Prod.fst).contains (ks.get ⟨i, hi⟩) = true
            ∧ (eq1 (andThreadKeys eq1 fA fB (ks.take i) vis).snd
                (lookupField fA (ks.get ⟨i, hi⟩))
                (lookupField fB (ks.get ⟨i, hi⟩))).fst = true := by
  intro ks
  induction ks with
  | nil => intro vis; simp [andThreadKeys]
  | cons k ks ih =>
    intro vis
    simp only [andThreadKeys]
    by_cases hc : (fB.map Prod.fst).contains k = true
    · rw [if_pos hc]
      by_cases hr : (eq1 vis (lookupField fA k) (lookupField fB k)).fst = true
      · rw [if_pos hr, ih]
        have htake : ∀ (j : Nat), andThreadKeys eq1 fA fB ((k :: ks).take (j + 1)) vis
            = andThreadKeys eq1 fA fB (ks.take j)
                (eq1 vis (lookupField fA k) (lookupField fB k)).snd := by
          intro j
          rw [List.take_succ_cons]
          simp only [andThreadKeys]
          rw [if_pos hc, if_pos hr]
        constructor
        · intro hall i hi
          cases i with
          | zero => exact ⟨hc, by simpa [andThreadKeys, hc] using hr⟩
          | succ j =>
            have hj : j < ks.length := by simpa using hi
            have hstep := hall j hj
            refine ⟨by simpa using hstep.1, ?_⟩
            rw [htake j]
            simpa using hstep.2
        · intro hall i hi
          have hstep := hall (i + 1) (by simpa using hi)
          refine ⟨by simpa using hstep.1, ?_⟩
          have h2 := hstep.2
          rw [htake i] at h2
          simpa using h2
      · rw [if_neg hr]
        simp only [show (false = true) = False by simp, false_iff, not_forall]
        refine ⟨0, by simp, ?_⟩
        intro hcontra
        exact hr (by simpa [andThreadKeys] using hcontra.2)
    · rw [if_neg hc]
      simp only [show (false = true) = False by simp, false_iff, not_forall]
      refine ⟨0, by simp, ?_⟩
      intro hcontra
      exact hc (by simpa using hcontra.1)

theorem deepEqual_arr_unfold (h : Heap) (f : Nat) (vis : List Nat) (r s : Nat)
    (as bs : List Value) (hga : heapGet h r = .arr as) (hgb : heapGet h s = .arr bs)
    (hrv : r ∉ vis) :
    deepEqual h (f + 1) vis (.ref r) (.ref s)
      = if as.length = bs.length then andThread (deepEqual h f) (as.zip bs) (r :: vis)
        else (false, r :: vis) := by
  simp [deepEqual, hrv, hga, hgb]

theorem deepEqual_obj_unfold (h : Heap) (f : Nat) (vis : List Nat) (r s : Nat)
    (fA fB : List (String × Value)) (hga : heapGet h r = .obj fA)
    (hgb : heapGet h s = .obj fB) (hrv : r ∉ vis) :
    deepEqual h (f + 1) vis (.ref r) (.ref s)
      = if fA.length = fB.length
        then andThreadKeys (deepEqual h f) fA fB (fA.map Prod.fst) (r :: vis)
        else (false, r :: vis) := by
  simp [deepEqual, hrv, hga, hgb, List.length_map]

/-- C5.  Sequence comparison: with an array as left operand, the result
is `false` when the right operand is not an array or the lengths
differ; with equal lengths it is `true` iff every index-aligned pair of
elements compares `true` under the engine, evaluated left to right with
the threaded guard state; the fold short-circuits at the first
mismatch; concretely `[1,2,3]` equals `[1,2,3]` and differs from
`[3,2,1]`. -/
theorem deepEqual_sequence_spec :
    (∀ (h : Heap) (f : Nat) (vis : List Nat) (r : Nat) (as : List Value) (b : Value),
        heapGet h r = .arr as → r ∉ vis → isArrayVal h b = false →
        deepEqual h (f + 1) vis (.ref r) b = (false, r :: vis))
    ∧ (∀ (h : Heap) (f : Nat) (vis : List Nat) (r s : Nat) (as bs : List Value),
        heapGet h r = .arr as → r ∉ vis → heapGet h s = .arr bs → as.length ≠ bs.length →
        deepEqual h (f + 1) vis (.ref r) (.ref s) = (false, r :: vis))
    ∧ (∀ (h : Heap) (f : Nat) (vis : List Nat) (r s : Nat) (as bs : List Value),
        heapGet h r = .arr as → r ∉ vis → heapGet h s = .arr bs → as.length = bs.length →
        ((deepEqual h (f + 1) vis (.ref r) (.ref s)).fst = true ↔
          ∀ (i : Nat) (hi : i < (as.zip bs).length),
            (deepEqual h f (andThread (deepEqual h f) ((as.zip bs).take i) (r :: vis)).snd
              ((as.zip bs).get ⟨i, hi⟩).fst ((as.zip bs).get ⟨i, hi⟩).snd).fst = true))
    ∧ (∀ (h : Heap) (f : Nat) (vis₀ : List Nat) (x y : Value) (ps : List (Value × Value)),
        (deepEqual h f vis₀ x y).fst = false →
        andThread (deepEqual h f) ((x, y) :: ps) vis₀
          = (false, (deepEqual h f vis₀ x y).snd))
    ∧ (deepEqual [.arr [.prim (.num 1), .prim (.num 2), .prim (.num 3)],
          .arr [.prim (.num 1), .prim (.num 2), .prim (.num 3)],
          .arr [.prim (.num 3), .prim (.num 2), .prim (.num 1)]] 5 [] (.ref 0) (.ref 1)).fst
        = true
    ∧ (deepEqual [.arr [.prim (.num 1), .prim (.num 2), .prim (.num 3)],
          .arr [.prim (.num 1), .prim (.num 2), .prim (.num 3)],
          .arr [.prim (.num 3), .prim (.num 2), .prim (.num 1)]] 5 [] (.ref 0) (.ref 2)).fst
        = false := by
  refine ⟨?_, ?_, ?_, ?_, by decide, by decide⟩
  · intro h f vis r as b hga hrv hb
    cases b with
    | prim q => simp [deepEqual, hrv, hga]
    | ref s =>
      rcases hgb : heapGet h s with bs | fB
      · simp [isArrayVal, hgb] at hb
      · simp [deepEqual, hrv, hga, hgb]
  · intro h f vis r s as bs hga hrv hgb hlen
    rw [deepEqual_arr_unfold h f vis r s as bs hga hgb hrv, if_neg hlen]
  · intro h f vis r s as bs hga hrv hgb hlen
    rw [deepEqual_arr_unfold h f vis r s as bs hga hgb hrv, if_pos hlen]
    exact andThread_fst_iff (deepEqual h f) (as.zip bs) (r :: vis)
  · intro h f vis₀ x y ps hfalse
    simp [andThread, hfalse]

/-- Witness for C5: an array against a shorter array is `false` with
only the left operand recorded in the guard set. -/
theorem deepEqual_sequence_spec_witness :
    deepEqual [HObj.arr [], HObj.arr [.prim (.num 1)]] 1 [] (.ref 0) (.ref 1)
      = (false, [0]) :=
  deepEqual_sequence_spec.2.1 [HObj.arr [], HObj.arr [.prim (.num 1)]] 0 [] 0 1 []
    [.prim (.num 1)] (by decide) (by decide) (by decide) (by decide)

/-- C4.  Mapping comparison: with a keyed object as left operand, the
result is `false` when the right operand is nil, not composite, or an
array; `false` when the own-key counts differ; with equal counts it is
`true` iff every key of the left operand is among the right operand's
keys and the two field values compare `true` under the engine with the
threaded guard state; key order is irrelevant, concretely
`deepEqual(lit a:1 b:2, lit b:2 a:1)` is `true`. -/
theorem deepEqual_mapping_spec :
    (∀ (h : Heap) (f : Nat) (vis : List Nat) (r : Nat) (fA : List (String × Value))
        (b : Value),
        heapGet h r = .obj fA → r ∉ vis → isObjVal h b = false →
        deepEqual h (f + 1) vis (.ref r) b = (false, r :: vis))
    ∧ (∀ (h : Heap) (f : Nat) (vis : List Nat) (r s : Nat)
        (fA fB : List (String × Value)),
        heapGet h r = .obj fA → r ∉ vis → heapGet h s = .obj fB → fA.length ≠ fB.length →
        deepEqual h (f + 1) vis (.ref r) (.ref s) = (false, r :: vis))
    ∧ (∀ (h : Heap) (f : Nat) (vis : List Nat) (r s : Nat)
        (fA fB : List (String × Value)),
        heapGet h r = .obj fA → r ∉ vis → heapGet h s = .obj fB → fA.length = fB.length →
        ((deepEqual h (f + 1) vis (.ref r) (.ref s)).fst = true ↔
          ∀ (i : Nat) (hi : i < (fA.map Prod.fst).length),
            (fB.map Prod.fst).contains ((fA.map Prod.fst).get ⟨i, hi⟩) = true
              ∧ (deepEqual h f
                  (andThreadKeys (deepEqual h f) fA fB ((fA.map Prod.fst).take i)
                    (r :: vis)).snd
                  (lookupField fA ((fA.map Prod.fst).get ⟨i, hi⟩))
                  (lookupField fB ((fA.map Prod.fst).get ⟨i, hi⟩))).fst = true))
    ∧ (deepEqual [.obj [("a", .prim (.num 1)), ("b", .prim (.num 2))],
          .obj [("b", .prim (.num 2)), ("a", .prim (.num 1))]] 3 [] (.ref 0) (.ref 1)).fst
        = true := by
  refine ⟨?_, ?_, ?_, by decide⟩
  · intro h f vis r fA b hga hrv hb
    cases b with
    | prim q => simp [deepEqual, hrv, hga]
    | ref s =>
      rcases hgb : heapGet h s with bs | fB
      · simp [deepEqual, hrv, hga, hgb]
      · simp [isObjVal, hgb] at hb
  · intro h f vis r s fA fB hga hrv hgb hlen
    rw [deepEqual_obj_unfold h f vis r s fA fB hga hgb hrv, if_neg hlen]
  · intro h f vis r s fA fB hga hrv hgb hlen
    rw [deepEqual_obj_unfold h f vis r s fA fB hga hgb hrv, if_pos hlen]
    exact andThreadKeys_fst_iff (deepEqual h f) fA fB (fA.map Prod.fst) (r :: vis)

/-- Witness for C4: an object against an object with a different key
count is `false` with only the left operand recorded in the guard. -/
theorem deepEqual_mapping_spec_witness :
    deepEqual [HObj.obj [], HObj.obj [("a", .prim (.num 1))]] 1 [] (.ref 0) (.ref 1)
      = (false, [0]) :=
  deepEqual_mapping_spec.2.1 [HObj.obj [], HObj.obj [("a", .prim (.num 1))]] 0 [] 0 1 []
    [("a", .prim (.num 1))] (by decide) (by decide) (by decide) (by decide)

/-! ## Claim theorems: guard short-circuit, dispatch, cross-shape -/

/-- C1.  Whenever the engine's guard set already contains the identity
of the left operand `a = ref r` (which is the case for any composite
that was a left operand of an earlier `deepEqual` call on this engine,
since entries are added on first visit and never removed), the call
returns the reference-identity equality `a === b` and leaves the guard
set unchanged — no comparator dispatch, no recursion. -/
theorem deepEqual_guard_shortcircuit (h : Heap) (fuel : Nat) (vis : List Nat)
    (r : Nat) (b : Value) (hr : r ∈ vis) :
    deepEqual h (fuel + 1) vis (.ref r) b = (strictEq (.ref r) b, vis) := by
  simp [deepEqual, hr]

/-- Witness for C1 at a concrete input: ref 0 is already in the guard
set, so the comparison short-circuits to identity. -/
theorem deepEqual_guard_shortcircuit_witness :
    deepEqual [] 5 [0] (.ref 0) (.ref 0) = (strictEq (.ref 0) (.ref 0), [0]) :=
  deepEqual_guard_shortcircuit [] 4 [0] 0 (.ref 0) (by decide)

/-- C6.  Cross-shape comparisons always return `false` (and, the engine
being total, never raise): primitive vs composite, sequence vs mapping,
mapping vs sequence, and composite vs primitive all yield `false`,
via the right-operand shape checks inside each comparator. -/
theorem deepEqual_cross_shape_false (h : Heap) (fuel : Nat) (vis : List Nat) (a b : Value) :
    (isComposite a = false → isComposite b = true → (deepEqual h (fuel + 1) vis a b).fst = false)
    ∧ (isArrayVal h a = true → isObjVal h b = true → (deepEqual h (fuel + 1) vis a b).fst = false)
    ∧ (isObjVal h a = true → isArrayVal h b = true → (deepEqual h (fuel + 1) vis a b).fst = false)
    ∧ (isComposite a = true → isComposite b = false →
        (deepEqual h (fuel + 1) vis a b).fst = false) := by
  refine ⟨?_, ?_, ?_, ?_⟩
  · intro ha hb
    cases a with
    | prim p =>
      cases b with
      | prim q => simp [isComposite] at hb
      | ref s => simp [deepEqual, strictEq]
    | ref r => simp [isComposite] at ha
  · intro ha hb
    cases a with
    | prim p => simp [isArrayVal] at ha
    | ref r =>
      cases b with
      | prim q => simp [isObjVal] at hb
      | ref s =>
        rcases hga : heapGet h r with as | fA
        · rcases hgb : heapGet h s with bs | fB
          · simp [isObjVal, hgb] at hb
          · by_cases hrv : r ∈ vis
            · have hrs : r ≠ s := by
                intro he
                subst he
                rw [hga] at hgb
                cases hgb
              simp [deepEqual, hrv, strictEq, hrs]
            · simp [deepEqual, hrv, hga, hgb]
        · simp [isArrayVal, hga] at ha
  · intro ha hb
    cases a with
    | prim p => simp [isObjVal] at ha
    | ref r =>
      cases b with
      | prim q => simp [isArrayVal] at hb
      | ref s =>
        rcases hga : heapGet h r with as | fA
        · simp [isObjVal, hga] at ha
        · rcases hgb : heapGet h s with bs | fB
          · by_cases hrv : r ∈ vis
            · have hrs : r ≠ s := by
                intro he
                subst he
                rw [hga] at hgb
                cases hgb
              simp [deepEqual, hrv, strictEq, hrs]
            · simp [deepEqual, hrv, hga, hgb]
          · simp [isArrayVal, hgb] at hb
  · intro ha hb
    cases a with
    | prim p => simp [isComposite] at ha
    | ref r =>
      cases b with
      | ref s => simp [isComposite] at hb
      | prim q =>
        by_cases hrv : r ∈ vis
        · simp [deepEqual, hrv, strictEq]
        · rcases hga : heapGet h r with as | fA <;> simp [deepEqual, hrv, hga]

/-- Witness for C6: an array compared to an object yields `false`. -/
theorem deepEqual_cross_shape_false_witness :
    (deepEqual [HObj.arr [], HObj.obj []] 1 [] (.ref 0) (.ref 1)).fst = false :=
  (deepEqual_cross_shape_false [HObj.arr [], HObj.obj []] 0 [] (.ref 0) (.ref 1)).2.1
    (by decide) (by decide)

/-- C7.  The `NoComparatorFound` error is raised iff no registered
comparator's shape predicate accepts the left operand; with the three
built-ins of the default engine construction that branch is unreachable
for every value — the primitive predicate accepts every non-composite,
the array predicate every sequence, the object predicate every
remaining composite. -/
theorem noComparatorError_iff_unreachable_default :
    (∀ (comps : List Comparator) (v : Value),
        noComparatorError comps v = true ↔ ∀ c ∈ comps, c.canHandle v = false)
    ∧ ∀ (h : Heap) (v : Value), noComparatorError (defaultComparators h) v = false := by
  constructor
  · intro comps v
    simp [noComparatorError, findComparator, Option.isNone_iff_eq_none, List.find?_eq_none]
  · intro h v
    cases v with
    | prim p =>
      simp [noComparatorError, findComparator, defaultComparators, primitiveComparator,
        isComposite, List.find?]
    | ref r =>
      rcases hg : heapGet h r with as | fs
      · simp [noComparatorError, findComparator, defaultComparators, primitiveComparator,
          arrayComparator, isComposite, isArrayVal, hg, List.find?]
      · simp [noComparatorError, findComparator, defaultComparators, primitiveComparator,
          arrayComparator, objectComparator, isComposite, isArrayVal, hg, List.find?]

/-- Witness for C7 at concrete inputs: on the empty comparator list the
error fires (vacuously: no comparator accepts), and on the default list
it does not. -/
theorem noComparatorError_iff_unreachable_default_witness :
    (noComparatorError [] (.prim .null) = true
      ↔ ∀ c ∈ ([] : List Comparator), c.canHandle (.prim .null) = false)
    ∧ noComparatorError (defaultComparators []) (.prim .null) = false :=
  ⟨noComparatorError_iff_unreachable_default.1 [] (.prim .null),
    noComparatorError_iff_unreachable_default.2 [] (.prim .null)⟩

/-- C8.  Registration gives priority: `addComparator c` prepends `c`,
so any value accepted by `c.canHandle` now dispatches to `c`, before
every previously registered comparator; and in general dispatch selects
exactly the first comparator in list order whose predicate accepts the
left operand. -/
theorem addComparator_priority_dispatch :
    (∀ (comps : List Comparator) (c : Comparator) (v : Value),
        c.canHandle v = true → findComparator (addComparator comps c) v = some c)
    ∧ ∀ (comps : List Comparator) (v : Value) (c : Comparator),
        findComparator comps v = some c ↔
          c.canHandle v = true ∧
            ∃ l₁ l₂, comps = l₁ ++ c :: l₂ ∧ ∀ c' ∈ l₁, c'.canHandle v = false := by
  constructor
  · intro comps c v hc
    simp [findComparator, addComparator, List.find?, hc]
  · intro comps v c
    rw [findComparator, List.find?_eq_some]
    simp [Bool.not_eq_true']

/-- Witness for C8: a freshly registered catch-all comparator wins the
dispatch over the three built-ins. -/
theorem addComparator_priority_dispatch_witness :
    findComparator (addComparator (defaultComparators []) ⟨fun _ => true⟩) (.prim .null)
      = some ⟨fun _ => true⟩ :=
  addComparator_priority_dispatch.1 (defaultComparators []) ⟨fun _ => true⟩ (.prim .null) rfl

/-- C10.  Non-composite values (including functions, symbols, bigints)
are routed to the primitive comparator, compared by strict identity
`===`, and never recorded in the guard set (the visited set is returned
unchanged); concretely, two distinct function identities compare
`false` and the same function identity compares `true`. -/
theorem primitive_identity_no_guard :
    (∀ (h : Heap) (fuel : Nat) (vis : List Nat) (p : Prim) (b : Value),
        deepEqual h (fuel + 1) vis (.prim p) b = (strictEq (.prim p) b, vis)
          ∧ findComparator (defaultComparators h) (.prim p) = some primitiveComparator)
    ∧ (deepEqual [] 1 [] (.prim (.func 0)) (.prim (.func 1))).fst = false
    ∧ (deepEqual [] 1 [] (.prim (.func 7)) (.prim (.func 7))).fst = true := by
  refine ⟨?_, by decide, by decide⟩
  intro h fuel vis p b
  constructor
  · simp [deepEqual]
  · simp [findComparator, defaultComparators, primitiveComparator, isComposite, List.find?]

/-! ## Acyclic values, reference lists, and the guard-free comparison

For the symmetry analysis we certify acyclicity of a value by reading
its reference list to a fuel bound, and compare values with a pure
(guard-free) recursion; on acyclic values whose composite references
are pairwise distinct, the engine agrees with the pure comparison. -/

/-- The immediate sub-values of a heap object. -/
def childValues : HObj → List Value
  | .arr vs => vs
  | .obj fs => fs.map Prod.snd

/-- Sequence a reference-collecting function over a list of values,
concatenating the results, failing if any element fails. -/
def seqRefs (f : Value → Option (List Nat)) : List Value → Option (List Nat)
  | [] => some []
  | v :: vs =>
    match f v, seqRefs f vs with
    | some a, some b => some (a ++ b)
    | _, _ => none

/-- The list of composite references reachable from a value, in
preorder and with multiplicity, within recursion depth `g`; `none`
certifies that the value does not bottom out within depth `g` (in
particular cyclic values yield `none` for every `g`). -/
def refsList (h : Heap) : Nat → Value → Option (List Nat)
  | _, .prim _ => some []
  | 0, .ref _ => none
  | g + 1, .ref r =>
    match seqRefs (refsList h g) (childValues (heapGet h r)) with
    | some rs => some (r :: rs)
    | none => none

/-- The guard-free structural comparison to recursion depth `g`: the
same comparator logic as `deepEqual` but with no visited set (fuel
exhaustion yields `false`).  On acyclic values of depth at most `g`
whose left operand has pairwise distinct composite references, it
coincides with the engine (`deepEqual_eq_pure`). -/
def pureDeepEq (h : Heap) : Nat → Value → Value → Bool
  | _, .prim p, b => strictEq (.prim p) b
  | 0, .ref _, _ => false
  | g + 1, .ref r, b =>
    match heapGet h r with
    | .arr as =>
      match b with
      | .ref s =>
        match heapGet h s with
        | .arr bs =>
          decide (as.length = bs.length)
            && (as.zip bs).all (fun p => pureDeepEq h g p.fst p.snd)
        | .obj _ => false
      | .prim _ => false
    | .obj fA =>
      match b with
      | .ref s =>
        match heapGet h s with
        | .obj fB =>
          decide (fA.length = fB.length)
            && (fA.map Prod.fst).all (fun k =>
                (fB.map Prod.fst).contains k
                  && pureDeepEq h g (lookupField fA k) (lookupField fB k))
        | .arr _ => false
      | .prim _ => false

/-- The key list of a heap object (empty for arrays). -/
def keysOf : HObj → List String
  | .arr _ => []
  | .obj fs => fs.map Prod.fst

/-- Heap well-formedness: every object's keys are pairwise distinct,
as JavaScript guarantees for its own-property key lists. -/
def heapWF (h : Heap) : Prop := ∀ o ∈ h, (keysOf o).Nodup

instance (h : Heap) : Decidable (heapWF h) :=
  inferInstanceAs (Decidable (∀ o ∈ h, (keysOf o).Nodup))

theorem heapWF_get {h : Heap} (hwf : heapWF h) (r : Nat) :
    (keysOf (heapGet h r)).Nodup := by
  rcases hg : h.get? r with _ | o
  · rw [heapGet, hg]
    simp [keysOf]
  · rw [heapGet, hg]
    exact hwf o (List.get?_mem hg)

theorem seqRefs_cons {f : Value → Option (List Nat)} {v : Value} {vs : List Value}
    {rs : List Nat} (hs : seqRefs f (v :: vs) = some rs) :
    ∃ ra rb, f v = some ra ∧ seqRefs f vs = some rb ∧ rs = ra ++ rb := by
  rcases hv : f v with _ | ra
  · simp only [seqRefs, hv] at hs
    exact Option.noConfusion hs
  · rcases hvs : seqRefs f vs with _ | rb
    · simp only [seqRefs, hv, hvs] at hs
      exact Option.noConfusion hs
    · simp only [seqRefs, hv, hvs, Option.some_inj] at hs
      exact ⟨ra, rb, rfl, rfl, hs.symm⟩

/-- With pairwise distinct keys, looking up each key of a field list in
order recovers exactly the field values in order. -/
theorem map_lookup_eq_values :
    ∀ {fA : List (String × Value)}, (fA.map Prod.fst).Nodup →
      (fA.map Prod.fst).map (lookupField fA) = fA.map Prod.snd := by
  intro fA
  induction fA with
  | nil => intro _; simp
  | cons p fA ih =>
    intro hnd
    rw [List.map_cons, List.map_cons, List.map_cons]
    rw [List.map_cons, List.nodup_cons] at hnd
    obtain ⟨hpk, hnd'⟩ := hnd
    congr 1
    · simp [lookupField, List.find?]
    · have hcong : ∀ k ∈ fA.map Prod.fst, lookupField (p :: fA) k = lookupField fA k := by
        intro k hk
        have hk2 : ¬ ((p.fst == k) = true) := by
          simp only [beq_iff_eq]
          intro he
          exact hpk (he ▸ hk)
        simp only [lookupField]
        rw [@List.find?_cons_of_neg (String × Value) (fun q => q.fst == k) p fA hk2]
      rw [List.map_congr_left hcong, ih hnd']

/-- Two duplicate-free lists of equal length with the first contained
in the second contain the same elements. -/
theorem nodup_subset_len_mem {l₁ l₂ : List String} (h₁ : l₁.Nodup) (h₂ : l₂.Nodup)
    (hlen : l₁.length = l₂.length) (hsub : ∀ x ∈ l₁, x ∈ l₂) :
    ∀ x ∈ l₂, x ∈ l₁ := by
  have hsub' : l₁.toFinset ⊆ l₂.toFinset := by
    intro x hx
    rw [List.mem_toFinset] at hx ⊢
    exact hsub x hx
  have hcard : l₂.toFinset.card ≤ l₁.toFinset.card := by
    rw [List.toFinset_card_of_nodup h₁, List.toFinset_card_of_nodup h₂]
    omega
  have heq := Finset.eq_of_subset_of_card_le hsub' hcard
  intro x hx
  have hx' : x ∈ l₁.toFinset := by
    rw [heq]
    rwa [List.mem_toFinset]
  rwa [List.mem_toFinset] at hx'

theorem primEq_symm (p q : Prim) : primEq p q = primEq q p := by
  simp only [primEq]
  cases hp : isNaN p <;> cases hq : isNaN q <;> simp
  exact eq_comm

theorem strictEq_symm (a b : Value) : strictEq a b = strictEq b a := by
  cases a with
  | prim p =>
    cases b with
    | prim q =>
      simp only [strictEq]
      exact primEq_symm p q
    | ref s => simp [strictEq]
  | ref r =>
    cases b with
    | prim q => simp [strictEq]
    | ref s =>
      simp only [strictEq]
      exact decide_eq_decide.mpr eq_comm

theorem bool_eq_of_iff {x y : Bool} (hxy : x = true ↔ y = true) : x = y := by
  cases x <;> cases y <;> simp_all

/-- On a left operand that is acyclic (within depth `g`) and whose
composite references are pairwise distinct and disjoint from the
current guard set, the engine agrees with the guard-free comparison:
the guard never fires, so the result is the pure structural one, and
the final guard set stays within the input set plus the left operand's
references. -/
theorem deepEqual_eq_pure :
    ∀ (g : Nat) (h : Heap), heapWF h →
      ∀ (a : Value) (ra : List Nat) (b : Value) (vis : List Nat) (f : Nat),
      refsList h g a = some ra → ra.Nodup → (∀ x ∈ ra, x ∉ vis) → g < f →
      (deepEqual h f vis a b).fst = pureDeepEq h g a b
        ∧ ∀ x ∈ (deepEqual h f vis a b).snd, x ∈ ra ∨ x ∈ vis := by
  intro g
  induction g with
  | zero =>
    intro h hwf a ra b vis f hrl hnd hdisj hf
    obtain ⟨f', rfl⟩ : ∃ f', f = f' + 1 := ⟨f - 1, by omega⟩
    cases a with
    | prim p =>
      refine ⟨by simp [deepEqual, pureDeepEq], ?_⟩
      intro x hx
      simp only [deepEqual] at hx
      exact Or.inr hx
    | ref r =>
      rw [refsList] at hrl
      exact Option.noConfusion hrl
  | succ g ihg =>
    intro h hwf a ra b vis f hrl hnd hdisj hf
    obtain ⟨f', rfl⟩ : ∃ f', f = f' + 1 := ⟨f - 1, by omega⟩
    have hgf' : g < f' := by omega
    cases a with
    | prim p =>
      refine ⟨by simp [deepEqual, pureDeepEq], ?_⟩
      intro x hx
      simp only [deepEqual] at hx
      exact Or.inr hx
    | ref r =>
      have hseq : ∃ rs, seqRefs (refsList h g) (childValues (heapGet h r)) = some rs
          ∧ ra = r :: rs := by
        rcases hs : seqRefs (refsList h g) (childValues (heapGet h r)) with _ | rs
        · rw [refsList, hs] at hrl
          exact Option.noConfusion hrl
        · rw [refsList, hs] at hrl
          simp only [Option.some_inj] at hrl
          exact ⟨rs, rfl, hrl.symm⟩
      obtain ⟨rs, hs, rfl⟩ := hseq
      have hrvis : r ∉ vis := hdisj r (List.mem_cons_self _ _)
      have hrrs : r ∉ rs := (List.nodup_cons.mp hnd).1
      have hndrs : rs.Nodup := (List.nodup_cons.mp hnd).2
      have hdisjrs : ∀ x ∈ rs, x ∉ r :: vis := by
        intro x hx
        simp only [List.mem_cons, not_or]
        exact ⟨fun he => hrrs (he ▸ hx), hdisj x (List.mem_cons_of_mem _ hx)⟩
      have hsndtop : ∀ x ∈ r :: vis, x ∈ r :: rs ∨ x ∈ vis := by
        intro x hx
        rcases List.mem_cons.mp hx with he | hm
        · exact Or.inl (he ▸ List.mem_cons_self _ _)
        · exact Or.inr hm
      rcases hga : heapGet h r with as | fA
      · rw [hga] at hs
        simp only [childValues] at hs
        have inner : ∀ (xs : List Value) (rs' : List Nat) (ys : List Value)
            (vis₀ : List Nat),
            seqRefs (refsList h g) xs = some rs' → rs'.Nodup →
            (∀ x ∈ rs', x ∉ vis₀) →
            (andThread (deepEqual h f') (xs.zip ys) vis₀).fst
                = (xs.zip ys).all (fun p => pureDeepEq h g p.fst p.snd)
              ∧ ∀ x ∈ (andThread (deepEqual h f') (xs.zip ys) vis₀).snd,
                  x ∈ rs' ∨ x ∈ vis₀ := by
          intro xs
          induction xs with
          | nil =>
            intro rs' ys vis₀ hseq hnd' hdis'
            refine ⟨by simp [andThread], ?_⟩
            intro x hx
            simp only [List.zip_nil_left, andThread] at hx
            exact Or.inr hx
          | cons a0 xs iha =>
            intro rs' ys vis₀ hseq hnd' hdis'
            obtain ⟨ra0, rs1, h0, h1, rfl⟩ := seqRefs_cons hseq
            rw [List.nodup_append] at hnd'
            obtain ⟨hnd0, hnd1, hdisj01⟩ := hnd'
            cases ys with
            | nil =>
              refine ⟨by simp [andThread], ?_⟩
              intro x hx
              simp only [List.zip_nil_right, andThread] at hx
              exact Or.inr hx
            | cons b0 ys =>
              rw [List.zip_cons_cons]
              have hdis0 : ∀ x ∈ ra0, x ∉ vis₀ := fun x hx =>
                hdis' x (List.mem_append_left _ hx)
              have hhead := ihg h hwf a0 ra0 b0 vis₀ f' h0 hnd0 hdis0 hgf'
              simp only [andThread, List.all_cons]
              by_cases hp : pureDeepEq h g a0 b0 = true
              · have hfst : (deepEqual h f' vis₀ a0 b0).fst = true := by
                  rw [hhead.1]; exact hp
                rw [if_pos hfst, hp, Bool.true_and]
                have hdis1 : ∀ x ∈ rs1, x ∉ (deepEqual h f' vis₀ a0 b0).snd := by
                  intro x hx hxv
                  rcases hhead.2 x hxv with hx0 | hx0
                  · exact hdisj01 hx0 hx
                  · exact hdis' x (List.mem_append_right _ hx) hx0
                have hrest := iha rs1 ys (deepEqual h f' vis₀ a0 b0).snd h1 hnd1 hdis1
                refine ⟨hrest.1, ?_⟩
                intro x hx
                rcases hrest.2 x hx with hx1 | hx1
                · exact Or.inl (List.mem_append_right _ hx1)
                · rcases hhead.2 x hx1 with hx0 | hx0
                  · exact Or.inl (List.mem_append_left _ hx0)
                  · exact Or.inr hx0
              · have hp' : pureDeepEq h g a0 b0 = false := by simpa using hp
                have hfst : ¬ ((deepEqual h f' vis₀ a0 b0).fst = true) := by
                  rw [hhead.1, hp']
                  simp
                rw [if_neg hfst, hp', Bool.false_and]
                refine ⟨rfl, ?_⟩
                intro x hx
                rcases hhead.2 x hx with hx0 | hx0
                · exact Or.inl (List.mem_append_left _ hx0)
                · exact Or.inr hx0
        cases b with
        | prim q =>
          refine ⟨by simp [deepEqual, hrvis, hga, pureDeepEq], ?_⟩
          intro x hx
          simp only [deepEqual, hga, if_neg hrvis] at hx
          exact hsndtop x hx
        | ref s =>
          rcases hgb : heapGet h s with bs | fB
          · by_cases hlen : as.length = bs.length
            · have hinner := inner as rs bs (r :: vis) hs hndrs hdisjrs
              rw [deepEqual_arr_unfold h f' vis r s as bs hga hgb hrvis, if_pos hlen]
              constructor
              · rw [hinner.1]
                simp [pureDeepEq, hga, hgb, hlen]
              · intro x hx
                rcases hinner.2 x hx with h1 | h1
                · exact Or.inl (List.mem_cons_of_mem _ h1)
                · exact hsndtop x h1
            · rw [deepEqual_arr_unfold h f' vis r s as bs hga hgb hrvis, if_neg hlen]
              refine ⟨by simp [pureDeepEq, hga, hgb, hlen], ?_⟩
              intro x hx
              exact hsndtop x hx
          · refine ⟨by simp [deepEqual, hrvis, hga, hgb, pureDeepEq], ?_⟩
            intro x hx
            simp only [deepEqual, hga, hgb, if_neg hrvis] at hx
            exact hsndtop x hx
      · rw [hga] at hs
        simp only [childValues] at hs
        have hndkA : (fA.map Prod.fst).Nodup := by
          have hk := heapWF_get hwf r
          rw [hga] at hk
          simpa [keysOf] using hk
        have hmapl : (fA.map Prod.fst).map (lookupField fA) = fA.map Prod.snd :=
          map_lookup_eq_values hndkA
        rw [← hmapl] at hs
        have innerK : ∀ (ks : List String) (rs' : List Nat)
            (fB' : List (String × Value)) (vis₀ : List Nat),
            seqRefs (refsList h g) (ks.map (lookupField fA)) = some rs' → rs'.Nodup →
            (∀ x ∈ rs', x ∉ vis₀) →
            (andThreadKeys (deepEqual h f') fA fB' ks vis₀).fst
                = ks.all (fun k => (fB'.map Prod.fst).contains k
                    && pureDeepEq h g (lookupField fA k) (lookupField fB' k))
              ∧ ∀ x ∈ (andThreadKeys (deepEqual h f') fA fB' ks vis₀).snd,
                  x ∈ rs' ∨ x ∈ vis₀ := by
          intro ks
          induction ks with
          | nil =>
            intro rs' fB' vis₀ hseq hnd' hdis'
            refine ⟨by simp [andThreadKeys], ?_⟩
            intro x hx
            simp only [andThreadKeys] at hx
            exact Or.inr hx
          | cons k ks ihk =>
            intro rs' fB' vis₀ hseq hnd' hdis'
            rw [List.map_cons] at hseq
            obtain ⟨ra0, rs1, h0, h1, rfl⟩ := seqRefs_cons hseq
            rw [List.nodup_append] at hnd'
            obtain ⟨hnd0, hnd1, hdisj01⟩ := hnd'
            simp only [andThreadKeys, List.all_cons]
            by_cases hc : (fB'.map Prod.fst).contains k = true
            · rw [if_pos hc, hc, Bool.true_and]
              have hdis0 : ∀ x ∈ ra0, x ∉ vis₀ := fun x hx =>
                hdis' x (List.mem_append_left _ hx)
              have hhead := ihg h hwf (lookupField fA k) ra0 (lookupField fB' k)
                vis₀ f' h0 hnd0 hdis0 hgf'
              by_cases hp : pureDeepEq h g (lookupField fA k) (lookupField fB' k) = true
              · have hfst :
                    (deepEqual h f' vis₀ (lookupField fA k) (lookupField fB' k)).fst
                      = true := by
                  rw [hhead.1]; exact hp
                rw [if_pos hfst, hp, Bool.true_and]
                have hdis1 : ∀ x ∈ rs1,
                    x ∉ (deepEqual h f' vis₀ (lookupField fA k) (lookupField fB' k)).snd := by
                  intro x hx hxv
                  rcases hhead.2 x hxv with hx0 | hx0
                  · exact hdisj01 hx0 hx
                  · exact hdis' x (List.mem_append_right _ hx) hx0
                have hrest := ihk rs1 fB'
                  (deepEqual h f' vis₀ (lookupField fA k) (lookupField fB' k)).snd
                  h1 hnd1 hdis1
                refine ⟨hrest.1, ?_⟩
                intro x hx
                rcases hrest.2 x hx with hx1 | hx1
                · exact Or.inl (List.mem_append_right _ hx1)
                · rcases hhead.2 x hx1 with hx0 | hx0
                  · exact Or.inl (List.mem_append_left _ hx0)
                  · exact Or.inr hx0
              · have hp' : pureDeepEq h g (lookupField fA k) (lookupField fB' k)
                    = false := by simpa using hp
                have hfst :
                    ¬ ((deepEqual h f' vis₀ (lookupField fA k) (lookupField fB' k)).fst
                      = true) := by
                  rw [hhead.1, hp']
                  simp
                rw [if_neg hfst, hp', Bool.false_and]
                refine ⟨rfl, ?_⟩
                intro x hx
                rcases hhead.2 x hx with hx0 | hx0
                · exact Or.inl (List.mem_append_left _ hx0)
                · exact Or.inr hx0
            · have hc' : (fB'.map Prod.fst).contains k = false := by simpa using hc
              rw [if_neg hc, hc', Bool.false_and, Bool.false_and]
              refine ⟨rfl, ?_⟩
              intro x hx
              exact Or.inr hx
        cases b with
        | prim q =>
          refine ⟨by simp [deepEqual, hrvis, hga, pureDeepEq], ?_⟩
          intro x hx
          simp only [deepEqual, hga, if_neg hrvis] at hx
          exact hsndtop x hx
        | ref s =>
          rcases hgb : heapGet h s with bs | fB
          · refine ⟨by simp [deepEqual, hrvis, hga, hgb, pureDeepEq], ?_⟩
            intro x hx
            simp only [deepEqual, hga, hgb, if_neg hrvis] at hx
            exact hsndtop x hx
          · by_cases hlen : fA.length = fB.length
            · have hinner := innerK (fA.map Prod.fst) rs fB (r :: vis) hs hndrs hdisjrs
              rw [deepEqual_obj_unfold h f' vis r s fA fB hga hgb hrvis, if_pos hlen]
              constructor
              · rw [hinner.1]
                simp [pureDeepEq, hga, hgb, hlen]
              · intro x hx
                rcases hinner.2 x hx with h1 | h1
                · exact Or.inl (List.mem_cons_of_mem _ h1)
                · exact hsndtop x h1
            · rw [deepEqual_obj_unfold h f' vis r s fA fB hga hgb hrvis, if_neg hlen]
              refine ⟨by simp [pureDeepEq, hga, hgb, hlen], ?_⟩
              intro x hx
              exact hsndtop x hx

/-- The guard-free comparison is symmetric on well-formed heaps: the
right-operand shape checks mirror the left dispatch, array comparison
is pointwise symmetric, and object comparison over duplicate-free key
lists of equal size determines the same key set from either side. -/
theorem pureDeepEq_symm :
    ∀ (g : Nat) (h : Heap), heapWF h → ∀ (a b : Value),
      pureDeepEq h g a b = pureDeepEq h g b a := by
  intro g
  induction g with
  | zero =>
    intro h hwf a b
    cases a with
    | prim p =>
      cases b with
      | prim q =>
        simp only [pureDeepEq]
        exact strictEq_symm _ _
      | ref s => simp [pureDeepEq, strictEq]
    | ref r =>
      cases b with
      | prim q => simp [pureDeepEq, strictEq]
      | ref s => simp [pureDeepEq]
  | succ g ihg =>
    intro h hwf a b
    cases a with
    | prim p =>
      cases b with
      | prim q =>
        simp only [pureDeepEq]
        exact strictEq_symm _ _
      | ref s =>
        rcases hgb : heapGet h s with bs | fB <;> simp [pureDeepEq, strictEq, hgb]
    | ref r =>
      cases b with
      | prim q =>
        rcases hga : heapGet h r with as | fA <;> simp [pureDeepEq, strictEq, hga]
      | ref s =>
        rcases hga : heapGet h r with as | fA <;> rcases hgb : heapGet h s with bs | fB
        · simp only [pureDeepEq, hga, hgb]
          by_cases hlen : as.length = bs.length
          · have hd1 : decide (as.length = bs.length) = true := decide_eq_true hlen
            have hd2 : decide (bs.length = as.length) = true := decide_eq_true hlen.symm
            rw [hd1, hd2, Bool.true_and, Bool.true_and]
            have zipsw : ∀ (xs ys : List Value),
                (xs.zip ys).all (fun p => pureDeepEq h g p.fst p.snd)
                  = (ys.zip xs).all (fun p => pureDeepEq h g p.fst p.snd) := by
              intro xs
              induction xs with
              | nil => intro ys; cases ys <;> simp
              | cons x xs ihx =>
                intro ys
                cases ys with
                | nil => simp
                | cons y ys =>
                  rw [List.zip_cons_cons, List.zip_cons_cons, List.all_cons,
                    List.all_cons, ihx ys]
                  have hsw : pureDeepEq h g x y = pureDeepEq h g y x := ihg h hwf x y
                  rw [hsw]
            exact zipsw as bs
          · have hd1 : decide (as.length = bs.length) = false := decide_eq_false hlen
            have hd2 : decide (bs.length = as.length) = false :=
              decide_eq_false (fun he => hlen he.symm)
            rw [hd1, hd2, Bool.false_and, Bool.false_and]
        · simp [pureDeepEq, hga, hgb]
        · simp [pureDeepEq, hga, hgb]
        · simp only [pureDeepEq, hga, hgb]
          by_cases hlen : fA.length = fB.length
          · have hd1 : decide (fA.length = fB.length) = true := decide_eq_true hlen
            have hd2 : decide (fB.length = fA.length) = true := decide_eq_true hlen.symm
            rw [hd1, hd2, Bool.true_and, Bool.true_and]
            have hndA : (fA.map Prod.fst).Nodup := by
              have hk := heapWF_get hwf r
              rw [hga] at hk
              simpa [keysOf] using hk
            have hndB : (fB.map Prod.fst).Nodup := by
              have hk := heapWF_get hwf s
              rw [hgb] at hk
              simpa [keysOf] using hk
            have hlenk : (fA.map Prod.fst).length = (fB.map Prod.fst).length := by
              simp [hlen]
            have main : ∀ (fX fY : List (String × Value)),
                (fX.map Prod.fst).Nodup → (fY.map Prod.fst).Nodup →
                (fX.map Prod.fst).length = (fY.map Prod.fst).length →
                (∀ k ∈ fX.map Prod.fst,
                  ((fY.map Prod.fst).contains k
                    && pureDeepEq h g (lookupField fX k) (lookupField fY k)) = true) →
                ∀ k ∈ fY.map Prod.fst,
                  ((fX.map Prod.fst).contains k
                    && pureDeepEq h g (lookupField fY k) (lookupField fX k)) = true := by
              intro fX fY hndX hndY hlenXY hall k hk
              have hsubXY : ∀ x ∈ fX.map Prod.fst, x ∈ fY.map Prod.fst := by
                intro x hx
                have hb := hall x hx
                rw [Bool.and_eq_true] at hb
                exact List.mem_of_elem_eq_true hb.1
              have hkX : k ∈ fX.map Prod.fst :=
                nodup_subset_len_mem hndX hndY hlenXY hsubXY k hk
              have hb := hall k hkX
              rw [Bool.and_eq_true] at hb
              rw [Bool.and_eq_true]
              refine ⟨List.elem_eq_true_of_mem hkX, ?_⟩
              rw [ihg h hwf (lookupField fY k) (lookupField fX k)]
              exact hb.2
            apply bool_eq_of_iff
            rw [List.all_eq_true, List.all_eq_true]
            exact ⟨fun hall => main fA fB hndA hndB hlenk hall,
                   fun hall => main fB fA hndB hndA hlenk.symm hall⟩
          · have hd1 : decide (fA.length = fB.length) = false := decide_eq_false hlen
            have hd2 : decide (fB.length = fA.length) = false :=
              decide_eq_false (fun he => hlen he.symm)
            rw [hd1, hd2, Bool.false_and, Bool.false_and]

/-- C9 counterexample.  With `x = lit a:1`, `y = lit a:1` two distinct
but structurally equal acyclic objects, the acyclic equal-shape arrays
`p = [x, x]` and `q = [x, y]` (heap refs 2 and 3) violate symmetry on
fresh engines: comparing `p` to `q` the guard records `x` while
comparing the first elements, so the second comparison `x` vs `y`
short-circuits to identity and fails; comparing `q` to `p` the left
operands `x` then `y` are both fresh, so both element comparisons
recurse structurally and succeed. -/
theorem deepEqual_symm_counterexample :
    (refsList [.obj [("a", .prim (.num 1))], .obj [("a", .prim (.num 1))],
        .arr [.ref 0, .ref 0], .arr [.ref 0, .ref 1]] 2 (.ref 2)).isSome = true
    ∧ (refsList [.obj [("a", .prim (.num 1))], .obj [("a", .prim (.num 1))],
        .arr [.ref 0, .ref 0], .arr [.ref 0, .ref 1]] 2 (.ref 3)).isSome = true
    ∧ isArrayVal [.obj [("a", .prim (.num 1))], .obj [("a", .prim (.num 1))],
        .arr [.ref 0, .ref 0], .arr [.ref 0, .ref 1]] (.ref 2) = true
    ∧ isArrayVal [.obj [("a", .prim (.num 1))], .obj [("a", .prim (.num 1))],
        .arr [.ref 0, .ref 0], .arr [.ref 0, .ref 1]] (.ref 3) = true
    ∧ (deepEqual [.obj [("a", .prim (.num 1))], .obj [("a", .prim (.num 1))],
        .arr [.ref 0, .ref 0], .arr [.ref 0, .ref 1]] 6 [] (.ref 2) (.ref 3)).fst = false
    ∧ (deepEqual [.obj [("a", .prim (.num 1))], .obj [("a", .prim (.num 1))],
        .arr [.ref 0, .ref 0], .arr [.ref 0, .ref 1]] 6 [] (.ref 3) (.ref 2)).fst
        = true := by
  decide

/-- C9 as amended.  Symmetry holds for acyclic values that contain no
repeated composite reference (no shared sub-objects within either
operand), on a well-formed heap, each direction starting from a fresh
engine: `refsList` returning a duplicate-free list certifies both
acyclicity and absence of sharing, and then each direction equals the
guard-free structural comparison, which is symmetric. -/
theorem deepEqual_symm_acyclic_unshared (h : Heap) (g f : Nat) (a b : Value)
    (ra rb : List Nat) (hwf : heapWF h)
    (hra : refsList h g a = some ra) (hrb : refsList h g b = some rb)
    (hnda : ra.Nodup) (hndb : rb.Nodup) (hf : g < f) :
    (deepEqual h f [] a b).fst = (deepEqual h f [] b a).fst := by
  have h1 := (deepEqual_eq_pure g h hwf a ra b [] f hra hnda (by simp) hf).1
  have h2 := (deepEqual_eq_pure g h hwf b rb a [] f hrb hndb (by simp) hf).1
  rw [h1, h2, pureDeepEq_symm g h hwf a b]

/-- Witness for the amended C9: two singleton objects with different
values compare `false` in both directions. -/
theorem deepEqual_symm_acyclic_unshared_witness :
    (deepEqual [HObj.obj [("a", .prim (.num 1))], HObj.obj [("a", .prim (.num 2))]]
        3 [] (.ref 0) (.ref 1)).fst
      = (deepEqual [HObj.obj [("a", .prim (.num 1))], HObj.obj [("a", .prim (.num 2))]]
        3 [] (.ref 1) (.ref 0)).fst :=
  deepEqual_symm_acyclic_unshared
    [HObj.obj [("a", .prim (.num 1))], HObj.obj [("a", .prim (.num 2))]]
    2 3 (.ref 0) (.ref 1) [0] [1] (by decide) (by decide) (by decide) (by decide)
    (by decide) (by decide)

end DeepEq
